import Mathlib

/-!
Verification development for the MemMachine profile-memory engine.

The definitions below are shallow embeddings of the Python source in
`src/memmachine/profile_memory/` (`profile_memory.py`, `util/lru_cache.py`):
pure fragments become Lean functions, the mutable LRU cache and tracker
become explicit state passing on list-based states, float arithmetic is
rendered with exact rationals, and the external LLM is an oracle parameter.
-/

set_option maxHeartbeats 1000000

namespace MemMachine

/-! ### Association-list helpers

Python `dict`s are modelled as insertion-ordered association lists with
unique keys.  `lookupA` is `d.get(k)`, `eraseKeyL` is `del d[k]` (removing
the first, hence only, binding). -/

def lookupA {K V : Type} [DecidableEq K] (k : K) : List (K × V) → Option V
  | [] => none
  | p :: rest => if p.1 = k then some p.2 else lookupA k rest

def eraseKeyL {K V : Type} [DecidableEq K] (k : K) : List (K × V) → List (K × V)
  | [] => []
  | p :: rest => if p.1 = k then rest else p :: eraseKeyL k rest

/-- Key-level counterpart of `eraseKeyL`: removes the first occurrence. -/
def eraseK {K : Type} [DecidableEq K] (k : K) : List K → List K
  | [] => []
  | a :: rest => if a = k then rest else a :: eraseK k rest

/-! ### LRU cache (`util/lru_cache.py`, class `LRUCache`)

The doubly-linked list plus `dict` is modelled by its abstraction: the list
of `(key, value)` pairs in recency order, front = most recently used
(`head.next`), back = least recently used (`tail.prev`).  Each method's
pointer surgery becomes the corresponding list operation:
`_remove_node` + `_add_to_front` on a resident node is promotion to the
front; eviction removes the back element. -/

structure LRUCache (K V : Type) where
  capacity : Nat
  entries : List (K × V)

namespace LRUCache

variable {K V : Type} [DecidableEq K]

def empty (K V : Type) (capacity : Nat) : LRUCache K V :=
  ⟨capacity, []⟩

/-- `LRUCache.get`: on a hit the node is moved to the front and its value
returned; on a miss `None` is returned and nothing changes. -/
def getC (c : LRUCache K V) (k : K) : Option V × LRUCache K V :=
  match lookupA k c.entries with
  | some v => (some v, ⟨c.capacity, (k, v) :: eraseKeyL k c.entries⟩)
  | none => (none, c)

/-- `LRUCache.put`: an existing key is updated and promoted; a new key is
inserted at the front, evicting the back element (`tail.prev`) first when
`len(self.cache) >= self.capacity` and the list is non-empty
(`dropLast [] = []` matches the `tail.prev != head` guard). -/
def putC (c : LRUCache K V) (k : K) (v : V) : LRUCache K V :=
  match lookupA k c.entries with
  | some _ => ⟨c.capacity, (k, v) :: eraseKeyL k c.entries⟩
  | none =>
    let base := if c.capacity ≤ c.entries.length then c.entries.dropLast else c.entries
    ⟨c.capacity, (k, v) :: base⟩

/-- `LRUCache.erase`: removes the binding when present, otherwise a no-op. -/
def eraseC (c : LRUCache K V) (k : K) : LRUCache K V :=
  ⟨c.capacity, eraseKeyL k c.entries⟩

def keys (c : LRUCache K V) : List K :=
  c.entries.map Prod.fst

end LRUCache

/-- One client operation on the cache. -/
inductive CacheOp (K V : Type) where
  | get (k : K)
  | put (k : K) (v : V)
  | erase (k : K)

def applyOp {K V : Type} [DecidableEq K] (c : LRUCache K V) : CacheOp K V → LRUCache K V
  | .get k => (c.getC k).2
  | .put k v => c.putC k v
  | .erase k => c.eraseC k

def runOps {K V : Type} [DecidableEq K] (c : LRUCache K V) (ops : List (CacheOp K V)) :
    LRUCache K V :=
  ops.foldl applyOp c

/-- Reference recency list for the spec's LRU law: the distinct touched keys
in most-recent-first order.  A `put` always touches; a `get` touches only
when it hits, i.e. when the key is among the first `N` (resident) keys;
an `erase` removes the key. -/
def touchStep {K V : Type} [DecidableEq K] (N : Nat) (L : List K) : CacheOp K V → List K
  | .get k => if k ∈ L.take N then k :: eraseK k L else L
  | .put k _ => k :: eraseK k L
  | .erase k => eraseK k L

def touchList {K V : Type} [DecidableEq K] (N : Nat) (ops : List (CacheOp K V)) : List K :=
  ops.foldl (touchStep N) []

def noEraseOps {K V : Type} (ops : List (CacheOp K V)) : Prop :=
  ∀ op ∈ ops, match op with
    | .erase _ => False
    | _ => True

/-! ### Profile cache keys (`profile_memory.py`)

Everywhere except the consolidation pass the profile cache is keyed by the
Python tuple `(user_id, json.dumps(isolations))`; the consolidation pass
(`_deduplicate_profile`, line 1063) calls `self._profile_cache.erase(user_id)`
with the bare string.  A Python `dict` distinguishes the two by type, which
the sum type below reproduces. -/

inductive CKey where
  | pair (userId : String) (isoDump : String)
  | raw (userId : String)
deriving DecidableEq

/-- Cache invalidation as performed by `add_new_profile`,
`delete_user_profile_feature` and `delete_user_profile`:
`self._profile_cache.erase((user_id, json.dumps(isolations)))`. -/
def crudCacheErase {V : Type} (c : LRUCache CKey V) (userId isoDump : String) :
    LRUCache CKey V :=
  c.eraseC (CKey.pair userId isoDump)

/-- Cache invalidation as performed by the consolidation deletions
(`_deduplicate_profile`, line 1063): `self._profile_cache.erase(user_id)`. -/
def dedupCacheErase {V : Type} (c : LRUCache CKey V) (userId : String) :
    LRUCache CKey V :=
  c.eraseC (CKey.raw userId)

/-! ### Update tracker (`ProfileUpdateTracker`, `ProfileUpdateTrackerManager`)

Wall-clock time (`datetime.datetime.now()`) is passed explicitly as a
rational `now`. -/

structure Tracker where
  messageLimit : Nat
  timeLimit : ℚ
  messageCount : Nat
  firstUpdated : Option ℚ

namespace Tracker

def init (messageLimit : Nat) (timeLimit : ℚ) : Tracker :=
  ⟨messageLimit, timeLimit, 0, none⟩

/-- `ProfileUpdateTracker.mark_update` at time `now`. -/
def markUpdate (t : Tracker) (now : ℚ) : Tracker :=
  { t with
    messageCount := t.messageCount + 1
    firstUpdated := match t.firstUpdated with
      | none => some now
      | some f => some f }

/-- `ProfileUpdateTracker._seconds_from_first_update` at time `now`. -/
def secondsFromFirstUpdate (t : Tracker) (now : ℚ) : Option ℚ :=
  match t.firstUpdated with
  | none => none
  | some f => some (now - f)

/-- `ProfileUpdateTracker.reset`. -/
def reset (t : Tracker) : Tracker :=
  { t with messageCount := 0, firstUpdated := none }

/-- `ProfileUpdateTracker.should_update` at time `now`. -/
def shouldUpdate (t : Tracker) (now : ℚ) : Bool :=
  if t.messageCount = 0 then
    false
  else
    let elapsed := t.secondsFromFirstUpdate now
    let exceedTimeLimit :=
      match elapsed with
      | some e => decide (t.timeLimit ≤ e)
      | none => false
    let exceedMsgLimit := decide (t.messageLimit ≤ t.messageCount)
    exceedTimeLimit || exceedMsgLimit

end Tracker

/-- `ProfileUpdateTrackerManager.mark_update`: create the tracker on first
touch (Python dicts append new keys at the end), then mark it. -/
def managerMark (messageLimit : Nat) (timeLimit : ℚ) (m : List (String × Tracker))
    (user : String) (now : ℚ) : List (String × Tracker) :=
  let m' := if (lookupA user m).isSome then m else m ++ [(user, Tracker.init messageLimit timeLimit)]
  m'.map fun p => if p.1 = user then (p.1, p.2.markUpdate now) else p

/-- `ProfileUpdateTrackerManager.get_users_to_update`: iterate the tracker
map in order, collect each user whose tracker fires and reset that tracker
in place.  Returns the fired users and the updated map. -/
def getUsersToUpdate (m : List (String × Tracker)) (now : ℚ) :
    List String × List (String × Tracker) :=
  match m with
  | [] => ([], [])
  | (u, t) :: rest =>
    let tail := getUsersToUpdate rest now
    if t.shouldUpdate now then
      (u :: tail.1, (u, t.reset) :: tail.2)
    else
      (tail.1, (u, t) :: tail.2)

/-! ### Range filter (`ProfileMemory.range_filter`)

Float arithmetic is rendered with exact rationals.  The Python admissibility
test for a prefix of length `d` with running sum `s` and running
sum-of-squares `sq` is `((sq - s*s/d)/d) ** 0.5 < max_std`.  Over exact
reals the variance `(sq - s*s/d)/d = (sq*d - s*s)/d^2` is non-negative, and
for `x ≥ 0`, `Real.sqrt x < m ↔ 0 < m ∧ x < m^2`; multiplying through by
`d^2 > 0` gives the square-root-free test used below. -/

def sumQ (l : List ℚ) : ℚ := l.sum

def sumSqQ (l : List ℚ) : ℚ := (l.map fun x => x * x).sum

/-- Population variance of a score list, `(Σx² − (Σx)²/d)/d`. -/
def popVar (l : List ℚ) : ℚ :=
  (sumSqQ l - sumQ l * sumQ l / l.length) / l.length

/-- The generator `(d if std_ok else -1 for ...)` over
`zip(sums, square_sums, divs)`, carrying the running sum `s`, running
sum-of-squares `sq` and position `d` exactly as `accumulate` does. -/
def stdCandsGo (maxStd s sq : ℚ) (d : Nat) : List ℚ → List ℤ
  | [] => []
  | x :: rest =>
    let s' := s + x
    let sq' := sq + x * x
    let d' := d + 1
    (if 0 < maxStd ∧ sq' * d' - s' * s' < maxStd ^ 2 * (d' : ℚ) ^ 2 then (d' : ℤ) else -1)
      :: stdCandsGo maxStd s' sq' d' rest

/-- `take = max(...)`: Python's `max` over the non-empty candidate list,
every member of which is `≥ -1`, equals a fold of `max` seeded with `-1`. -/
def takeCount (scores : List ℚ) (maxStd : ℚ) : ℤ :=
  (stdCandsGo maxStd 0 0 0 scores).foldl max (-1)

/-- The `(score, item)` pairs retained by `range_filter`: the first `take`
pairs whose score exceeds `new_min = arr[0][0] - max_range`
(`zip(k4, v, range(take))` with the `f > new_min` guard). -/
def rangePairs {α : Type} (arr : List (ℚ × α)) (maxRange maxStd : ℚ) : List (ℚ × α) :=
  match arr with
  | [] => []
  | (s0, _) :: _ =>
    (arr.take (takeCount (arr.map Prod.fst) maxStd).toNat).filter
      fun p => s0 - maxRange < p.1

/-- `ProfileMemory.range_filter`. -/
def range_filter {α : Type} (arr : List (ℚ × α)) (maxRange maxStd : ℚ) : List α :=
  (rangePairs arr maxRange maxStd).map Prod.snd

/-- Scores in non-increasing order: the documented input shape
("list returned by semantic_search, sorted descending"). -/
def DescendingScores {α : Type} (arr : List (ℚ × α)) : Prop :=
  arr.Pairwise fun p q => q.1 ≤ p.1

/-! ### Isolation intersection with conflict pruning
(`_deduplicate_profile`, lines 1095-1105)

`associations` is the list of `(history_id, isolations)` pairs returned by
`get_all_citations_for_ids`; only the isolation maps matter here.  The
Python loop keeps an accumulator dict `new_isolations` and a `bad` set. -/

/-- The inner loop `for k, v in i[1].items()`: adopt unset keys, mark a key
bad when a later value differs from the adopted one. -/
def isoRowGo {K V : Type} [DecidableEq K] [DecidableEq V] :
    List (K × V) → List K → List (K × V) → List (K × V) × List K
  | acc, bad, [] => (acc, bad)
  | acc, bad, (k, v) :: ps =>
    match lookupA k acc with
    | none => isoRowGo (acc ++ [(k, v)]) bad ps
    | some oldVal =>
      if oldVal ≠ v then isoRowGo acc (k :: bad) ps else isoRowGo acc bad ps

/-- The outer loop `for i in associations`. -/
def isoIntersectGo {K V : Type} [DecidableEq K] [DecidableEq V] :
    List (K × V) → List K → List (List (K × V)) → List (K × V) × List K
  | acc, bad, [] => (acc, bad)
  | acc, bad, row :: rest => isoIntersectGo (isoRowGo acc bad row).1 (isoRowGo acc bad row).2 rest

/-- The derived isolations of a consolidated entry: adopt the first value
seen per key, then drop every conflicted key. -/
def newIsolations {K V : Type} [DecidableEq K] [DecidableEq V]
    (rows : List (List (K × V))) : List (K × V) :=
  let r := isoIntersectGo [] [] rows
  r.1.filter fun p => ¬ p.1 ∈ r.2

/-- All values attached to key `k` across the cited rows, in order. -/
def occVals {K V : Type} [DecidableEq K] (k : K) (pairs : List (K × V)) : List V :=
  (pairs.filter fun p => p.1 = k).map Prod.snd

/-! ### Cache keys and isolation serialization

`get_user_profile` and the CRUD writers key the cache by
`(user_id, json.dumps(isolations))` — note: *without* `sort_keys=True`
(only `_get_isolation_grouped_memories` sorts).  `json.dumps` renders a
dict in insertion order. -/

inductive IVal where
  | vbool (b : Bool)
  | vint (n : ℤ)
  | vstr (s : String)
deriving DecidableEq

def renderIVal : IVal → String
  | .vbool true => "true"
  | .vbool false => "false"
  | .vint n => toString n
  | .vstr s => "\"" ++ s ++ "\""

/-- `json.dumps(isolations)`: keys in insertion order. -/
def jsonDumps (m : List (String × IVal)) : String :=
  "\x7b" ++ String.intercalate ", " (m.map fun p => "\"" ++ p.1 ++ "\": " ++ renderIVal p.2)
    ++ "\x7d"

/-- Code-point lexicographic order on strings, the order `sort_keys=True`
sorts by. -/
def strLeB : List Char → List Char → Bool
  | [], _ => true
  | _ :: _, [] => false
  | a :: as, b :: bs =>
    if a.toNat < b.toNat then true
    else if a.toNat = b.toNat then strLeB as bs
    else false

/-- `json.dumps(isolations, sort_keys=True)`: the canonical serialization. -/
def jsonDumpsSorted (m : List (String × IVal)) : String :=
  jsonDumps (m.insertionSort fun a b => strLeB a.1.data b.1.data = true)

/-- The cache key built by `get_user_profile` / `add_new_profile` /
`delete_user_profile_feature` / `delete_user_profile`. -/
def cacheKeyOf (userId : String) (isolations : List (String × IVal)) : CKey :=
  CKey.pair userId (jsonDumps isolations)

/-- `get_user_profile`: cache lookup, falling back to storage and
populating the cache on a miss.  `storage` stands for
`profile_storage.get_profile`. -/
def getUserProfile {P : Type} (c : LRUCache CKey P)
    (storage : String → List (String × IVal) → P)
    (userId : String) (isolations : List (String × IVal)) : P × LRUCache CKey P :=
  match c.getC (cacheKeyOf userId isolations) with
  | (some p, c') => (p, c')
  | (none, c') =>
    let p := storage userId isolations
    (p, c'.putC (cacheKeyOf userId isolations) p)

/-! ### `add_persona_message` (lines 415-447) -/

/-- A stored history row (`add_history` appends one). -/
structure HistRow where
  userId : String
  content : String
deriving DecidableEq

/-- ASCII apostrophe. -/
def squote : String := String.singleton (Char.ofNat 39)

/-- The content actually stored by `add_persona_message`: when the metadata
carries a `"speaker"` key the content is rewritten to
`f"{metadata['speaker']} sends '{content}'"`, otherwise kept unchanged. -/
def addPersonaContent (content : String) (metadata : List (String × String)) : String :=
  match lookupA "speaker" metadata with
  | some sp => sp ++ " sends " ++ squote ++ content ++ squote
  | none => content

/-- `add_persona_message`: append the (possibly rewritten) content to the
history via `add_history`. -/
def addPersonaMessage (hist : List HistRow) (userId content : String)
    (metadata : List (String × String)) : List HistRow :=
  hist ++ [⟨userId, addPersonaContent content metadata⟩]

/-- Match-based `Option` alternative, used to state lookup facts. -/
def oElse {α : Type} (a b : Option α) : Option α :=
  match a with
  | some x => some x
  | none => b

/-- Invariant tying a running cache to the reference recency list `L`:
the resident keys are a prefix of `L` (in order), and `L`'s tail of evicted
keys is non-empty only once the cache has filled up. -/
def CacheInv {K V : Type} [DecidableEq K] (N : Nat) (c : LRUCache K V) (L : List K) : Prop :=
  c.capacity = N ∧ c.entries.length ≤ N ∧
    ∃ S, L = c.keys ++ S ∧ L.Nodup ∧ (S = [] ∨ c.entries.length = N)

/-- Concrete `range_filter` input: descending scores with a gap after the
second entry, whose tail of equal scores drags the running deviation of the
full prefix below the threshold even though the deviation of the first two
scores exceeds it. -/
def c5ExampleList : List (ℚ × Nat) :=
  [(4, 0), (1, 1), (0, 2), (0, 3), (0, 4), (0, 5), (0, 6), (0, 7)]

/-! ### Parsed JSON values

A minimal rendering of Python objects produced by `json.loads`, enough for
the command validation and consolidation logic.  Objects are
insertion-ordered association lists. -/

inductive PJson where
  | jint (n : ℤ)
  | jstr (s : String)
  | jbool (b : Bool)
  | jarr (elems : List PJson)
  | jobj (fields : List (String × PJson))

def PJson.isArr : PJson → Bool
  | .jarr _ => true
  | _ => false

/-! ### Consolidation keep/delete decision
(`_deduplicate_profile`, lines 1006-1066)

`d` is the parsed LLM response (already known to be a dict).  The code
substitutes `[]` for a missing `"consolidate_memories"` key *without*
setting `keep_all`; only a missing `"keep_memories"` key, or either value
failing `isinstance(..., list)`, sets `keep_all_memories = True`. -/

structure ConsolidationDecision where
  keepAll : Bool
  validKeep : List ℤ
  consolidate : List PJson

def consolidationDecision (d : List (String × PJson)) : ConsolidationDecision :=
  let cm0 := match lookupA "consolidate_memories" d with
    | none => PJson.jarr []
    | some j => j
  let kmMissing := (lookupA "keep_memories" d).isNone
  let km0 := match lookupA "keep_memories" d with
    | none => PJson.jarr []
    | some j => j
  let (cmList, cmBad) := match cm0 with
    | PJson.jarr l => (l, false)
    | _ => ([], true)
  let (kmList, kmBad) := match km0 with
    | PJson.jarr l => (l, false)
    | _ => ([], true)
  let keepAll := kmMissing || cmBad || kmBad
  let validKeep := kmList.filterMap fun j => match j with
    | PJson.jint n => some n
    | _ => none
  ⟨keepAll, validKeep, cmList⟩

/-- The ids deleted by the consolidation pass over a section whose entries
carry `metadata["id"]` values `memIds`: with `keep_all` nothing is deleted,
otherwise every id not in the validated `keep_memories` list is passed to
`delete_profile_feature_by_id`. -/
def deletedIds (d : List (String × PJson)) (memIds : List ℤ) : List ℤ :=
  let dec := consolidationDecision d
  if dec.keepAll then [] else memIds.filter fun i => ¬ i ∈ dec.validKeep

/-! ### Ingestion of uningested history messages
(`_process_uningested_memories` / `_update_user_profile_think`)

The LLM plus response parsing is an oracle `llm : HMsg → Except Unit PJson`:
`.error` stands for `generate_response` raising one of the caught
exceptions (`ExternalServiceAPIError`, `ValueError`, `RuntimeError`), which
`_update_user_profile_think` logs and swallows by returning early. -/

structure HMsg where
  id : Nat
  userId : String
  content : String
  isolations : String

/-- A write issued against the profile storage. -/
inductive ProfileEvent where
  | addFeature (userId : String) (feature value tag : PJson) (isolations : String)
      (citations : List Nat)
  | deleteFeature (userId : String) (feature tag : PJson) (value : Option PJson)
      (isolations : String)

structure IngestState where
  events : List ProfileEvent
  ingestedIds : List Nat

def isCmdStr (which : String) : PJson → Bool
  | .jstr s => s = which
  | _ => false

/-- The validation chain of `_update_user_profile_think` (lines 776-822):
a command must be a dict with a `"command"` key equal to `"add"` or
`"delete"`, a `"feature"` key, a `"tag"` key, and — for `"add"` — a
`"value"` key. -/
def validCommand (c : PJson) : Bool :=
  match c with
  | .jobj d =>
    match lookupA "command" d with
    | none => false
    | some cmd =>
      (isCmdStr "add" cmd || isCmdStr "delete" cmd) &&
      (lookupA "feature" d).isSome &&
      (lookupA "tag" d).isSome &&
      (!isCmdStr "add" cmd || (lookupA "value" d).isSome)
  | _ => false

/-- Apply one validated command (lines 829-867): `add` calls
`add_new_profile` with `citations=[citation_id]`, `delete` calls
`delete_user_profile_feature` with the optional value. -/
def applyCommand (userId isolations : String) (citationId : Nat)
    (events : List ProfileEvent) (c : PJson) : List ProfileEvent :=
  match c with
  | .jobj d =>
    match lookupA "command" d, lookupA "feature" d, lookupA "tag" d with
    | some cmd, some f, some t =>
      if isCmdStr "add" cmd then
        match lookupA "value" d with
        | some v => events ++ [.addFeature userId f v t isolations [citationId]]
        | none => events
      else
        events ++ [.deleteFeature userId f t (lookupA "value" d) isolations]
    | _, _, _ => events
  | _ => events

/-- `_update_user_profile_think`: on an LLM error, log and return with the
state unchanged; otherwise validate the parsed dict's values and apply the
valid commands in order. -/
def updateUserProfileThink (llm : HMsg → Except Unit PJson) (st : IngestState)
    (msg : HMsg) : IngestState :=
  match llm msg with
  | .error _ => st
  | .ok resp =>
    match resp with
    | .jobj d =>
      let valids := (d.map Prod.snd).filter validCommand
      { st with
        events := valids.foldl (applyCommand msg.userId msg.isolations msg.id) st.events }
    | _ => st

/-- The `process_messages` closure of `_process_uningested_memories`
(lines 500-526): every message of the group — the erroring ones included —
is processed with `_update_user_profile_think` and then passed to
`mark_messages_ingested`. -/
def processMessages (llm : HMsg → Except Unit PJson) (st : IngestState)
    (msgs : List HMsg) : IngestState :=
  msgs.foldl
    (fun s m =>
      let s' := updateUserProfileThink llm s m
      { s' with ingestedIds := s'.ingestedIds ++ [m.id] })
    st

/-- `get_history_messages_by_ingestion_status(..., is_ingested=False)`
restricted to the given messages: those whose id has not been marked. -/
def uningestedAfter (st : IngestState) (msgs : List HMsg) : List HMsg :=
  msgs.filter fun m => ¬ m.id ∈ st.ingestedIds

/-! ## Theorems -/

/-- Claim C10: `add_persona_message` stores
`f"{metadata['speaker']} sends '{content}'"` when the metadata carries a
`"speaker"` key, and the unchanged content otherwise. -/
theorem c10_add_persona_message (hist : List HistRow) (userId content : String)
    (metadata : List (String × String)) :
    (∀ sp, lookupA "speaker" metadata = some sp →
      addPersonaMessage hist userId content metadata
        = hist ++ [⟨userId, sp ++ " sends " ++ squote ++ content ++ squote⟩]) ∧
    (lookupA "speaker" metadata = none →
      addPersonaMessage hist userId content metadata = hist ++ [⟨userId, content⟩]) := by
  constructor
  · intro sp h
    simp [addPersonaMessage, addPersonaContent, h]
  · intro h
    simp [addPersonaMessage, addPersonaContent, h]

/-- Claim C10, witness: a message with a speaker is rewritten, one without
a speaker is stored verbatim. -/
theorem c10_add_persona_message_witness :
    (lookupA "speaker" [("speaker", "alice")] = some "alice" ∧
      addPersonaMessage [] "u" "hi" [("speaker", "alice")]
        = [⟨"u", "alice" ++ " sends " ++ squote ++ "hi" ++ squote⟩]) ∧
    (lookupA "speaker" ([] : List (String × String)) = none ∧
      addPersonaMessage [] "u" "hi" [] = [⟨"u", "hi"⟩]) := by
  refine ⟨⟨rfl, ?_⟩, ⟨rfl, ?_⟩⟩
  · exact (c10_add_persona_message [] "u" "hi" [("speaker", "alice")]).1 "alice" rfl
  · exact (c10_add_persona_message [] "u" "hi" []).2 rfl

/-- Claim C3: the consolidation pass erases the bare `user_id` string
(line 1063) while every cache entry is keyed by the
`(user_id, json.dumps(isolations))` tuple, so the erase is a no-op and the
stale entry for `(u, I)` survives — contradicting the documented cache
invalidation; the CRUD operations, which erase the tuple key, do remove
the entry. -/
theorem c3_dedup_cache_erase_misses :
    ((dedupCacheErase ((LRUCache.empty CKey Nat 1000).putC (CKey.pair "u" "isoG") 42) "u").getC
        (CKey.pair "u" "isoG")).1 = some 42 ∧
    ((crudCacheErase ((LRUCache.empty CKey Nat 1000).putC (CKey.pair "u" "isoG") 42) "u"
        "isoG").getC (CKey.pair "u" "isoG")).1 = none := by
  constructor <;> rfl

/-- Claim C1, counterexample: with an LLM that always raises, processing a
single message swallows the error (the state is unchanged by
`_update_user_profile_think`) yet still marks the message ingested, so the
message does *not* remain in the uningested set and is never retried. -/
theorem c1_error_still_marked_counterexample :
    updateUserProfileThink (fun _ => Except.error ()) ⟨[], []⟩ ⟨7, "u", "hi", "iso"⟩
        = ⟨[], []⟩ ∧
    (processMessages (fun _ => Except.error ()) ⟨[], []⟩ [⟨7, "u", "hi", "iso"⟩]).ingestedIds
        = [7] ∧
    uningestedAfter (processMessages (fun _ => Except.error ()) ⟨[], []⟩
        [⟨7, "u", "hi", "iso"⟩]) [⟨7, "u", "hi", "iso"⟩] = [] := by
  refine ⟨rfl, rfl, rfl⟩

/-- Claim C2, counterexample: a parsed response in which
`"consolidate_memories"` is missing but `"keep_memories"` is a (here empty)
list does *not* trigger `keep_all`, and the section entry with id 7 is
deleted. -/
theorem c2_missing_consolidate_counterexample :
    lookupA "consolidate_memories" [("keep_memories", PJson.jarr [])] = none ∧
    deletedIds [("keep_memories", PJson.jarr [])] [7] = [7] := by
  constructor <;> rfl

/-- Claim C4, counterexample: at the boundary `max_range = 0`,
`max_std = 0` the strict comparisons fail and the single-element input
produces the empty output, not the input. -/
theorem c4_single_element_counterexample :
    range_filter [((1 : ℚ), (0 : Nat))] 0 0 = [] := by
  rfl

/-- Claim C6: a tracker fires exactly when its count `n` and first-touch
time `f` satisfy `n ≥ 1 ∧ (n ≥ M ∨ now - f ≥ T)`;
`get_users_to_update` returns exactly the firing users and resets their
trackers; and with `M = 3`, `T = 60`: three marks fire, two marks plus a
61-second wait fire, two marks plus a 10-second wait do not. -/
theorem c6_tracker_trigger :
    (∀ (t : Tracker) (now : ℚ),
      t.shouldUpdate now = true ↔
        1 ≤ t.messageCount ∧
          (t.messageLimit ≤ t.messageCount ∨
            ∃ f, t.firstUpdated = some f ∧ t.timeLimit ≤ now - f)) ∧
    (∀ (m : List (String × Tracker)) (now : ℚ),
      (getUsersToUpdate m now).1 = (m.filter fun p => p.2.shouldUpdate now).map Prod.fst ∧
      (getUsersToUpdate m now).2 =
        m.map fun p => if p.2.shouldUpdate now then (p.1, p.2.reset) else p) ∧
    (getUsersToUpdate
      (managerMark 3 60 (managerMark 3 60 (managerMark 3 60 [] "u" 0) "u" 0) "u" 0) 0).1
      = ["u"] ∧
    (getUsersToUpdate (managerMark 3 60 (managerMark 3 60 [] "u" 0) "u" 0) 61).1 = ["u"] ∧
    (getUsersToUpdate (managerMark 3 60 (managerMark 3 60 [] "u" 0) "u" 0) 10).1 = [] := by
  refine ⟨?_, ?_, ?_, ?_, ?_⟩
  case refine_3 =>
    norm_num [getUsersToUpdate, managerMark, Tracker.init, Tracker.markUpdate,
      Tracker.shouldUpdate, Tracker.secondsFromFirstUpdate, lookupA]
  case refine_4 =>
    norm_num [getUsersToUpdate, managerMark, Tracker.init, Tracker.markUpdate,
      Tracker.shouldUpdate, Tracker.secondsFromFirstUpdate, lookupA]
  case refine_5 =>
    norm_num [getUsersToUpdate, managerMark, Tracker.init, Tracker.markUpdate,
      Tracker.shouldUpdate, Tracker.secondsFromFirstUpdate, lookupA]
  · intro t now
    unfold Tracker.shouldUpdate Tracker.secondsFromFirstUpdate
    rcases t with ⟨ml, tl, mc, fu⟩
    cases fu with
    | none =>
      by_cases h : mc = 0 <;> simp [h] <;> omega
    | some f =>
      by_cases h : mc = 0 <;> simp [h]
      constructor
      · intro hor
        exact ⟨by omega, hor.symm⟩
      · rintro ⟨-, hor⟩
        exact hor.symm
  · intro m now
    induction m with
    | nil => exact ⟨rfl, rfl⟩
    | cons p rest ih =>
      obtain ⟨u, t⟩ := p
      by_cases h : t.shouldUpdate now = true <;>
        simp [getUsersToUpdate, h, ih.1, ih.2]

/-- Claim C2, amended: `keep_all` (and hence the absence of deletions) is
triggered exactly by a missing or non-list `"keep_memories"` value or by a
present-but-non-list `"consolidate_memories"` value; a merely missing
`"consolidate_memories"` key is replaced by `[]` and does not suppress
deletions. -/
theorem c2_keep_all_amended (d : List (String × PJson)) (memIds : List ℤ)
    (h : lookupA "keep_memories" d = none
      ∨ (∃ j, lookupA "keep_memories" d = some j ∧ j.isArr = false)
      ∨ (∃ j, lookupA "consolidate_memories" d = some j ∧ j.isArr = false)) :
    deletedIds d memIds = [] := by
  have hk : (consolidationDecision d).keepAll = true := by
    unfold consolidationDecision
    rcases h with h | ⟨j, hj, hbad⟩ | ⟨j, hj, hbad⟩
    · simp [h]
    · rw [hj]
      cases j <;> simp_all [PJson.isArr]
    · rw [hj]
      cases j <;> simp_all [PJson.isArr]
  simp [deletedIds, hk]

/-- Claim C2, witness: an empty response dict has no `"keep_memories"`
key, so nothing is deleted. -/
theorem c2_keep_all_amended_witness :
    lookupA "keep_memories" ([] : List (String × PJson)) = none ∧
    deletedIds [] [7] = [] :=
  ⟨rfl, c2_keep_all_amended [] [7] (Or.inl rfl)⟩

/-- `_update_user_profile_think` never touches the ingestion marks. -/
theorem think_ingestedIds (llm : HMsg → Except Unit PJson) (st : IngestState) (msg : HMsg) :
    (updateUserProfileThink llm st msg).ingestedIds = st.ingestedIds := by
  unfold updateUserProfileThink
  cases llm msg with
  | error e => rfl
  | ok resp => cases resp <;> rfl

/-- Claim C1, amended: an LLM error is swallowed — the worker does not
crash and the profile state is unchanged for that message — but every
processed message, erroring or not, is passed to `mark_messages_ingested`,
so a failed message is *not* retried on a later tick. -/
theorem c1_error_swallowed_but_marked (llm : HMsg → Except Unit PJson)
    (st : IngestState) (msgs : List HMsg) :
    (processMessages llm st msgs).ingestedIds
        = st.ingestedIds ++ msgs.map (fun m => m.id) ∧
    (∀ (msg : HMsg) (st' : IngestState) (e : Unit), llm msg = Except.error e →
      updateUserProfileThink llm st' msg = st') := by
  constructor
  · induction msgs generalizing st with
    | nil => simp [processMessages]
    | cons m rest ih =>
      have h1 := think_ingestedIds llm st m
      calc (processMessages llm st (m :: rest)).ingestedIds
          = (updateUserProfileThink llm st m).ingestedIds ++ [m.id]
              ++ rest.map (fun x => x.id) := by
            simpa [processMessages] using
              ih { updateUserProfileThink llm st m with
                    ingestedIds := (updateUserProfileThink llm st m).ingestedIds ++ [m.id] }
        _ = st.ingestedIds ++ (m :: rest).map (fun x => x.id) := by
            rw [h1]; simp
  · intro msg st' e h
    unfold updateUserProfileThink
    rw [h]

/-- Claim C1, witness: an always-erroring LLM leaves the state of a message
untouched. -/
theorem c1_error_swallowed_but_marked_witness :
    (fun (_ : HMsg) => (Except.error () : Except Unit PJson)) ⟨7, "u", "hi", "iso"⟩
        = Except.error () ∧
    updateUserProfileThink (fun _ => Except.error ()) ⟨[], [5]⟩ ⟨7, "u", "hi", "iso"⟩
        = ⟨[], [5]⟩ :=
  ⟨rfl, (c1_error_swallowed_but_marked (fun _ => Except.error ()) ⟨[], []⟩ []).2
    ⟨7, "u", "hi", "iso"⟩ ⟨[], [5]⟩ () rfl⟩

/-- Claim C9, counterexample: two isolation maps with the same key-value
pairs in different insertion order share the canonical sorted-key
serialization, yet `get_user_profile`'s cache key — built with
`json.dumps(isolations)` *without* `sort_keys=True` — differs. -/
theorem c9_cache_key_not_canonical :
    cacheKeyOf "u" [("a", IVal.vint 1), ("b", IVal.vint 2)]
        ≠ cacheKeyOf "u" [("b", IVal.vint 2), ("a", IVal.vint 1)] ∧
    jsonDumpsSorted [("a", IVal.vint 1), ("b", IVal.vint 2)]
        = jsonDumpsSorted [("b", IVal.vint 2), ("a", IVal.vint 1)] := by
  constructor
  · intro h
    exact absurd (congrArg (fun k => match k with
      | CKey.pair _ d => d
      | CKey.raw _ => "") h) (by decide)
  · decide

/-- Looking up a key right after `put`ting it hits the fresh front entry. -/
theorem getC_putC_same {K V : Type} [DecidableEq K] (c : LRUCache K V) (k : K) (v : V) :
    ((c.putC k v).getC k).1 = some v := by
  unfold LRUCache.putC LRUCache.getC
  cases h : lookupA k c.entries <;> simp [lookupA]

/-- A `get` hit leaves the entry resident: getting again still hits. -/
theorem getC_getC_hit {K V : Type} [DecidableEq K] (c : LRUCache K V) (k : K) (v : V)
    (h : (c.getC k).1 = some v) : (((c.getC k).2).getC k).1 = some v := by
  unfold LRUCache.getC at h ⊢
  cases hl : lookupA k c.entries with
  | none => rw [hl] at h; exact absurd h (by simp)
  | some w =>
    rw [hl] at h
    simp at h
    subst h
    simp [lookupA]

/-- Claim C9, amended: all cache operations of `get_user_profile` key the
cache by `(user_id, json.dumps(isolations))` — the *insertion-order*
serialization, not the sorted one — so two cache keys agree exactly when
the insertion-order serializations agree, and within one call the lookup
key and the populate key coincide: after `get_user_profile` the cache
always holds the returned profile under that key. -/
theorem c9_cache_key_amended {P : Type} :
    (∀ (u : String) (i1 i2 : List (String × IVal)),
      cacheKeyOf u i1 = cacheKeyOf u i2 ↔ jsonDumps i1 = jsonDumps i2) ∧
    (∀ (c : LRUCache CKey P) (storage : String → List (String × IVal) → P)
        (u : String) (iso : List (String × IVal)),
      (((getUserProfile c storage u iso).2).getC (cacheKeyOf u iso)).1
        = some (getUserProfile c storage u iso).1) := by
  constructor
  · intro u i1 i2
    unfold cacheKeyOf
    simp
  · intro c storage u iso
    unfold getUserProfile
    cases h : c.getC (cacheKeyOf u iso) with
    | mk fst snd =>
      cases fst with
      | some p =>
        simp only
        have := getC_getC_hit c (cacheKeyOf u iso) p (by rw [h])
        rw [h] at this
        exact this
      | none =>
        simp only
        exact getC_putC_same snd (cacheKeyOf u iso) (storage u iso)

theorem oElse_none_right {α : Type} (a : Option α) : oElse a none = a := by
  cases a <;> rfl

theorem oElse_assoc {α : Type} (a b c : Option α) :
    oElse (oElse a b) c = oElse a (oElse b c) := by
  cases a <;> rfl

theorem lookupA_append {K V : Type} [DecidableEq K] (k : K) (l1 l2 : List (K × V)) :
    lookupA k (l1 ++ l2) = oElse (lookupA k l1) (lookupA k l2) := by
  induction l1 with
  | nil => simp [lookupA, oElse]
  | cons p rest ih =>
    by_cases h : p.1 = k <;> simp [lookupA, h, ih, oElse]

theorem occVals_cons {K V : Type} [DecidableEq K] (k : K) (p : K × V) (ps : List (K × V)) :
    occVals k (p :: ps) = if p.1 = k then p.2 :: occVals k ps else occVals k ps := by
  by_cases h : p.1 = k <;> simp [occVals, h]

theorem isoRowGo_append {K V : Type} [DecidableEq K] [DecidableEq V]
    (l1 l2 : List (K × V)) (acc : List (K × V)) (bad : List K) :
    isoRowGo acc bad (l1 ++ l2)
      = isoRowGo (isoRowGo acc bad l1).1 (isoRowGo acc bad l1).2 l2 := by
  induction l1 generalizing acc bad with
  | nil => rfl
  | cons p rest ih =>
    obtain ⟨k, v⟩ := p
    show isoRowGo acc bad ((k, v) :: (rest ++ l2)) = _
    rw [isoRowGo]
    conv_rhs => rw [isoRowGo]
    cases hacc : lookupA k acc with
    | none => exact ih ..
    | some oldv =>
      dsimp only
      by_cases hne : oldv ≠ v
      · rw [if_pos hne, if_pos hne]
        exact ih ..
      · rw [if_neg hne, if_neg hne]
        exact ih ..

theorem isoIntersectGo_join {K V : Type} [DecidableEq K] [DecidableEq V]
    (rows : List (List (K × V))) (acc : List (K × V)) (bad : List K) :
    isoIntersectGo acc bad rows = isoRowGo acc bad rows.flatten := by
  induction rows generalizing acc bad with
  | nil => rfl
  | cons row rest ih =>
    show isoIntersectGo acc bad (row :: rest) = isoRowGo acc bad (row ++ rest.flatten)
    rw [isoIntersectGo, isoRowGo_append, ih]

theorem isoRowGo_lookup {K V : Type} [DecidableEq K] [DecidableEq V]
    (ps : List (K × V)) (acc : List (K × V)) (bad : List K) (k : K) :
    lookupA k (isoRowGo acc bad ps).1
      = oElse (lookupA k acc) ((occVals k ps).head?) := by
  induction ps generalizing acc bad with
  | nil =>
    cases h : lookupA k acc <;> simp [isoRowGo, occVals, oElse, h]
  | cons p rest ih =>
    obtain ⟨k', v'⟩ := p
    rw [isoRowGo]
    rw [occVals_cons]
    by_cases hk : k' = k
    · subst hk
      simp only [if_pos rfl]
      cases hacc : lookupA k' acc with
      | none =>
        dsimp only
        rw [ih, lookupA_append, hacc]
        simp [lookupA, oElse]
      | some oldv =>
        dsimp only
        by_cases hne : oldv ≠ v'
        · rw [if_pos hne, ih, hacc]
          simp [oElse]
        · rw [if_neg hne, ih, hacc]
          simp [oElse]
    · simp only [if_neg hk]
      cases hacc : lookupA k' acc with
      | none =>
        dsimp only
        rw [ih, lookupA_append]
        have h1 : lookupA k [(k', v')] = none := by simp [lookupA, hk]
        rw [h1, oElse_none_right]
      | some oldv =>
        dsimp only
        by_cases hne : oldv ≠ v'
        · rw [if_pos hne, ih]
        · rw [if_neg hne, ih]

theorem isoRowGo_bad {K V : Type} [DecidableEq K] [DecidableEq V]
    (ps : List (K × V)) (acc : List (K × V)) (bad : List K) (k : K) :
    k ∈ (isoRowGo acc bad ps).2 ↔
      k ∈ bad ∨ ∃ w ∈ occVals k ps,
        some w ≠ oElse (lookupA k acc) ((occVals k ps).head?) := by
  induction ps generalizing acc bad with
  | nil => simp [isoRowGo, occVals]
  | cons p rest ih =>
    obtain ⟨k', v'⟩ := p
    rw [isoRowGo]
    by_cases hk : k' = k
    · subst hk
      have hocc : occVals k' ((k', v') :: rest) = v' :: occVals k' rest := by
        simp [occVals_cons]
      rw [hocc]
      cases hacc : lookupA k' acc with
      | none =>
        dsimp only
        rw [ih]
        have h1 : lookupA k' (acc ++ [(k', v')]) = some v' := by
          rw [lookupA_append, hacc]
          simp [lookupA, oElse]
        rw [h1]
        simp only [oElse, List.head?_cons, List.mem_cons]
        constructor
        · rintro (hb | ⟨w, hw, hne⟩)
          · exact Or.inl hb
          · exact Or.inr ⟨w, Or.inr hw, hne⟩
        · rintro (hb | ⟨w, rfl | hw, hne⟩)
          · exact Or.inl hb
          · exact absurd rfl hne
          · exact Or.inr ⟨w, hw, hne⟩
      | some oldv =>
        dsimp only
        by_cases hne : oldv ≠ v'
        · rw [if_pos hne, ih, hacc]
          simp only [oElse, List.head?_cons, List.mem_cons]
          constructor
          · intro _
            refine Or.inr ⟨v', Or.inl rfl, ?_⟩
            simp [Ne.symm hne]
          · intro _
            exact Or.inl (Or.inl (by trivial))
        · push_neg at hne
          subst hne
          rw [if_neg (by simp), ih, hacc]
          simp only [oElse, List.head?_cons, List.mem_cons]
          constructor
          · rintro (hb | ⟨w, hw, hne'⟩)
            · exact Or.inl hb
            · exact Or.inr ⟨w, Or.inr hw, hne'⟩
          · rintro (hb | ⟨w, rfl | hw, hne'⟩)
            · exact Or.inl hb
            · exact absurd rfl hne'
            · exact Or.inr ⟨w, hw, hne'⟩
    · have hocc : occVals k ((k', v') :: rest) = occVals k rest := by
        simp [occVals_cons, hk]
      rw [hocc]
      cases hacc : lookupA k' acc with
      | none =>
        dsimp only
        rw [ih]
        have h1 : lookupA k (acc ++ [(k', v')]) = lookupA k acc := by
          rw [lookupA_append]
          have h2 : lookupA k [(k', v')] = none := by simp [lookupA, hk]
          rw [h2, oElse_none_right]
        rw [h1]
      | some oldv =>
        dsimp only
        by_cases hne : oldv ≠ v'
        · rw [if_pos hne, ih]
          simp only [List.mem_cons]
          constructor
          · rintro ((h | hb) | hex)
            · exact absurd h.symm hk
            · exact Or.inl hb
            · exact Or.inr hex
          · rintro (hb | hex)
            · exact Or.inl (Or.inr hb)
            · exact Or.inr hex
        · rw [if_neg hne, ih]

theorem lookupA_filter_notMem {K V : Type} [DecidableEq K]
    (acc : List (K × V)) (bad : List K) (k : K) :
    lookupA k (acc.filter fun p => ¬ p.1 ∈ bad)
      = if k ∈ bad then none else lookupA k acc := by
  induction acc with
  | nil => simp [lookupA]
  | cons p rest ih =>
    rw [List.filter_cons]
    by_cases hb : p.1 ∈ bad
    · rw [if_neg (by simpa using hb)]
      rw [ih]
      by_cases hkb : k ∈ bad
      · rw [if_pos hkb, if_pos hkb]
      · rw [if_neg hkb, if_neg hkb]
        have hpk : ¬ p.1 = k := fun h => hkb (h ▸ hb)
        conv_rhs => rw [lookupA]
        rw [if_neg hpk]
    · rw [if_pos (by simpa using hb)]
      conv_lhs => rw [lookupA]
      by_cases hk : p.1 = k
      · rw [if_pos hk, if_neg (hk ▸ hb)]
        conv_rhs => rw [lookupA]
        rw [if_pos hk]
      · rw [if_neg hk, ih]
        by_cases hkb : k ∈ bad
        · rw [if_pos hkb, if_pos hkb]
        · rw [if_neg hkb, if_neg hkb]
          conv_rhs => rw [lookupA]
          rw [if_neg hk]

/-- Claim C8: the isolations of a consolidated entry are computed by
isolation intersection with conflict pruning over the cited rows'
isolation maps — a key maps to `v` in the result exactly when `v` is the
first value seen for that key and every occurrence agrees with it — and
merging `\x7bg:"G", s:"S1"\x7d` with `\x7bg:"G", s:"S2"\x7d` yields
`\x7bg:"G"\x7d`. -/
theorem c8_isolation_intersection :
    (∀ (K V : Type) (instK : DecidableEq K) (instV : DecidableEq V)
        (rows : List (List (K × V))) (k : K),
      lookupA k (newIsolations rows)
        = match occVals k rows.flatten with
          | [] => none
          | v :: rest => if rest.all (fun w => w = v) then some v else none) ∧
    newIsolations [[("g", "G"), ("s", "S1")], [("g", "G"), ("s", "S2")]] = [("g", "G")] := by
  constructor
  · intro K V instK instV rows k
    simp only [newIsolations]
    rw [isoIntersectGo_join]
    rw [lookupA_filter_notMem]
    have hl := isoRowGo_lookup rows.flatten [] [] k
    have hb := isoRowGo_bad rows.flatten [] [] k
    have hnil : lookupA k ([] : List (K × V)) = none := rfl
    rw [hnil] at hl hb
    simp only [oElse] at hl hb
    cases hocc : occVals k rows.flatten with
    | nil =>
      rw [hocc] at hl
      simp at hl
      split <;> simp [hl]
    | cons v rest =>
      rw [hocc] at hl hb
      simp only [List.head?] at hl hb
      by_cases hall : rest.all (fun w => w = v) = true
      · have hnb : ¬ k ∈ (isoRowGo ([] : List (K × V)) [] rows.flatten).2 := by
          rw [hb]
          rintro (h | ⟨w, hw, hne⟩)
          · exact absurd h (List.not_mem_nil k)
          · rcases List.mem_cons.mp hw with rfl | hw'
            · exact hne rfl
            · exact hne
                (congrArg some (of_decide_eq_true (List.all_eq_true.mp hall w hw')))
        rw [if_neg hnb, hl]
        simp [hall]
      · have hyb : k ∈ (isoRowGo ([] : List (K × V)) [] rows.flatten).2 := by
          rw [hb]
          right
          rw [List.all_eq_true] at hall
          push_neg at hall
          obtain ⟨w, hw, hne⟩ := hall
          exact ⟨w, List.mem_cons_of_mem _ hw, by simpa using hne⟩
        rw [if_pos hyb]
        simp [hall]
  · decide

/-- Claim C4, amended: for strictly positive `max_range` and `max_std` —
the strict comparisons of the implementation exclude the zero boundary —
a single-element input is returned unchanged. -/
theorem c4_single_element_amended {α : Type} (s : ℚ) (x : α) (maxRange maxStd : ℚ)
    (hr : 0 < maxRange) (hs : 0 < maxStd) :
    range_filter [(s, x)] maxRange maxStd = [x] := by
  have hcond : 0 < maxStd ∧ (0 + s * s) * ((0 + 1 : ℕ) : ℚ) - (0 + s) * (0 + s)
      < maxStd ^ 2 * ((0 + 1 : ℕ) : ℚ) ^ 2 := by
    refine ⟨hs, ?_⟩
    push_cast
    nlinarith [pow_pos hs 2]
  have hcands : stdCandsGo maxStd 0 0 0 [s] = [1] := by
    simp only [stdCandsGo]
    rw [if_pos hcond]
    norm_num
  have htake : takeCount [s] maxStd = 1 := by
    rw [takeCount, hcands]
    decide
  have hscores : ([(s, x)] : List (ℚ × α)).map Prod.fst = [s] := rfl
  unfold range_filter rangePairs
  rw [hscores, htake]
  simp only [Int.toNat_one, List.take_succ_cons, List.take_nil, List.filter_cons]
  rw [if_pos (by simpa using sub_lt_self s hr)]
  rfl

/-- Claim C4, witness: strict bounds at a concrete input. -/
theorem c4_single_element_amended_witness :
    ((0:ℚ) < 1 ∧ (0:ℚ) < 1) ∧ range_filter [((5 : ℚ), (3 : Nat))] 1 1 = [3] :=
  ⟨⟨by norm_num, by norm_num⟩, c4_single_element_amended 5 3 1 1 (by norm_num) (by norm_num)⟩

theorem foldlMax_mem (l : List ℤ) (a : ℤ) : l.foldl max a = a ∨ l.foldl max a ∈ l := by
  induction l generalizing a with
  | nil => exact Or.inl rfl
  | cons x rest ih =>
    rw [List.foldl_cons]
    rcases ih (max a x) with h | h
    · rcases max_choice a x with hm | hm
      · exact Or.inl (by rw [h, hm])
      · refine Or.inr ?_
        rw [h, hm]
        exact List.mem_cons_self ..
    · exact Or.inr (List.mem_cons_of_mem _ h)

theorem sumQ_append_one (pre : List ℚ) (x : ℚ) : sumQ (pre ++ [x]) = sumQ pre + x := by
  simp [sumQ]

theorem sumSqQ_append_one (pre : List ℚ) (x : ℚ) :
    sumSqQ (pre ++ [x]) = sumSqQ pre + x * x := by
  simp [sumSqQ]

theorem take_len_succ {α : Type} (pre : List α) (x : α) (rest : List α) :
    (pre ++ x :: rest).take (pre.length + 1) = pre ++ [x] := by
  induction pre with
  | nil => rfl
  | cons a as ih => simp [List.take_succ_cons, ih]

/-- Every candidate emitted by the admissibility scan is `-1` or a prefix
length `j` whose exact-arithmetic variance test passed. -/
theorem stdCandsGo_mem (ms : ℚ) :
    ∀ (rest pre : List ℚ) (z : ℤ),
      z ∈ stdCandsGo ms (sumQ pre) (sumSqQ pre) pre.length rest →
      z = -1 ∨ ∃ j : ℕ, pre.length + 1 ≤ j ∧ j ≤ pre.length + rest.length ∧ z = (j : ℤ) ∧
        0 < ms ∧
        sumSqQ ((pre ++ rest).take j) * (j : ℚ)
            - sumQ ((pre ++ rest).take j) * sumQ ((pre ++ rest).take j)
          < ms ^ 2 * (j : ℚ) ^ 2 := by
  intro rest
  induction rest with
  | nil =>
    intro pre z hz
    exact absurd hz (List.not_mem_nil z)
  | cons x rest ih =>
    intro pre z hz
    rw [stdCandsGo] at hz
    rcases List.mem_cons.mp hz with hz1 | hz2
    · by_cases hcond : 0 < ms ∧
          (sumSqQ pre + x * x) * ((pre.length + 1 : ℕ) : ℚ)
              - (sumQ pre + x) * (sumQ pre + x)
            < ms ^ 2 * ((pre.length + 1 : ℕ) : ℚ) ^ 2
      · rw [if_pos hcond] at hz1
        refine Or.inr ⟨pre.length + 1, le_refl _, by simp, hz1, hcond.1, ?_⟩
        rw [take_len_succ, sumQ_append_one, sumSqQ_append_one]
        exact hcond.2
      · rw [if_neg hcond] at hz1
        exact Or.inl hz1
    · have hz2' : z ∈ stdCandsGo ms (sumQ (pre ++ [x])) (sumSqQ (pre ++ [x]))
          (pre ++ [x]).length rest := by
        rw [sumQ_append_one, sumSqQ_append_one, List.length_append]
        exact hz2
      rcases ih (pre ++ [x]) z hz2' with h | ⟨j, hj1, hj2, hj3, hj4, hj5⟩
      · exact Or.inl h
      · refine Or.inr ⟨j, ?_, ?_, hj3, hj4, ?_⟩
        · simp only [List.length_append, List.length_singleton] at hj1
          omega
        · simp only [List.length_append, List.length_singleton] at hj2
          simp only [List.length_cons]
          omega
        · rw [List.append_assoc] at hj5
          exact hj5

theorem popVar_lt_iff (l : List ℚ) (ms : ℚ) (j : ℕ) (hl : l.length = j) (hj : 0 < j) :
    popVar l < ms ^ 2 ↔
      sumSqQ l * (j : ℚ) - sumQ l * sumQ l < ms ^ 2 * (j : ℚ) ^ 2 := by
  have hj' : (0:ℚ) < (j:ℚ) := by exact_mod_cast hj
  rw [popVar, hl, div_lt_iff hj', ← mul_lt_mul_right hj']
  have key : (sumSqQ l - sumQ l * sumQ l / (j:ℚ)) * (j:ℚ)
      = sumSqQ l * (j:ℚ) - sumQ l * sumQ l := by
    field_simp
  rw [key, show ms ^ 2 * (j:ℚ) * (j:ℚ) = ms ^ 2 * (j:ℚ) ^ 2 from by ring]

/-- On a list with non-increasing scores, filtering by a strict lower bound
keeps a prefix. -/
theorem filter_gt_eq_self_append {α : Type} (c : ℚ) :
    ∀ (l : List (ℚ × α)), l.Pairwise (fun p q => q.1 ≤ p.1) →
      ∃ t, (l.filter fun p => c < p.1) ++ t = l := by
  intro l
  induction l with
  | nil => exact fun _ => ⟨[], rfl⟩
  | cons p rest ih =>
    intro hp
    rw [List.pairwise_cons] at hp
    rw [List.filter_cons]
    by_cases hc : c < p.1
    · rw [if_pos (by simpa using hc)]
      obtain ⟨t, ht⟩ := ih hp.2
      exact ⟨t, by rw [List.cons_append, ht]⟩
    · rw [if_neg (by simpa using hc)]
      have hall : rest.filter (fun p => decide (c < p.1)) = [] := by
        rw [List.filter_eq_nil]
        intro q hq
        simp only [decide_eq_true_eq]
        intro hcq
        exact hc (lt_of_lt_of_le hcq (hp.1 q hq))
      rw [hall]
      exact ⟨p :: rest, rfl⟩

/-- Claim C5, amended: for descending input the output is a prefix of the
input's items and every retained score `s` satisfies
`scores[0] - s ≤ max_range`; however the admissible-prefix length `take` is
the *largest* length whose running deviation passes, so the stddev bound is
guaranteed only for some prefix at least as long as the output (the
retained prefix itself can violate it, see the counterexample). -/
theorem c5_range_filter_amended {α : Type} (arr : List (ℚ × α)) (maxRange maxStd : ℚ)
    (hdesc : DescendingScores arr) (hr : 0 ≤ maxRange) (hs : 0 ≤ maxStd) :
    (∃ t, range_filter arr maxRange maxStd ++ t = arr.map Prod.snd) ∧
    (∀ s0 x0 rest, arr = (s0, x0) :: rest →
      ∀ p ∈ rangePairs arr maxRange maxStd, s0 - p.1 ≤ maxRange) ∧
    (range_filter arr maxRange maxStd ≠ [] →
      0 < maxStd ∧ ∃ j : ℕ, (range_filter arr maxRange maxStd).length ≤ j ∧
        j ≤ arr.length ∧ popVar ((arr.map Prod.fst).take j) < maxStd ^ 2) := by
  refine ⟨?_, ?_, ?_⟩
  · cases arr with
    | nil => exact ⟨[], rfl⟩
    | cons p0 rest =>
      obtain ⟨s0, x0⟩ := p0
      obtain ⟨t1, ht1⟩ := filter_gt_eq_self_append (s0 - maxRange)
        (((s0, x0) :: rest).take
          ((takeCount (((s0, x0) :: rest).map Prod.fst) maxStd).toNat))
        (hdesc.sublist (List.take_sublist _ _))
      refine ⟨(t1 ++ ((s0, x0) :: rest).drop
        ((takeCount (((s0, x0) :: rest).map Prod.fst) maxStd).toNat)).map Prod.snd, ?_⟩
      unfold range_filter rangePairs
      dsimp only
      rw [← List.map_append, ← List.append_assoc, ht1, List.take_append_drop]
  · intro s0 x0 rest heq p hp
    subst heq
    unfold rangePairs at hp
    dsimp only at hp
    rw [List.mem_filter] at hp
    have h2 := hp.2
    simp only [decide_eq_true_eq] at h2
    linarith
  · intro hne
    cases arr with
    | nil => exact absurd rfl hne
    | cons p0 rest =>
      obtain ⟨s0, x0⟩ := p0
      set scores := ((s0, x0) :: rest).map Prod.fst with hscores
      have hnp : rangePairs ((s0, x0) :: rest) maxRange maxStd ≠ [] := by
        intro h
        refine hne ?_
        unfold range_filter
        rw [h]
        rfl
      have htk1 : 1 ≤ (takeCount scores maxStd).toNat := by
        by_contra hlt
        push_neg at hlt
        have h0 : (takeCount scores maxStd).toNat = 0 := by omega
        refine hnp ?_
        unfold rangePairs
        dsimp only
        rw [← hscores, h0]
        rfl
      have hcand : takeCount scores maxStd = -1 ∨
          takeCount scores maxStd ∈ stdCandsGo maxStd 0 0 0 scores := by
        rw [takeCount]
        exact foldlMax_mem _ _
      rcases hcand with h1 | h2
      · rw [h1] at htk1
        simp at htk1
      · have h3 := stdCandsGo_mem maxStd scores [] (takeCount scores maxStd) h2
        rcases h3 with h4 | ⟨j, hj1, hj2, hj3, hj4, hj5⟩
        · rw [h4] at htk1
          simp at htk1
        · simp only [List.length_nil, List.nil_append, Nat.zero_add] at hj1 hj2 hj5
          have hjpos : 0 < j := by omega
          have hjlen : j ≤ scores.length := hj2
          refine ⟨hj4, j, ?_, ?_, ?_⟩
          · have htoj : (takeCount scores maxStd).toNat = j := by
              rw [hj3]
              omega
            unfold range_filter rangePairs
            dsimp only
            rw [← hscores, htoj, List.length_map]
            calc (List.filter _ (((s0, x0) :: rest).take j)).length
                ≤ (((s0, x0) :: rest).take j).length := List.length_filter_le _ _
              _ ≤ j := List.length_take_le _ _
          · rw [hscores] at hjlen
            simpa using hjlen
          · have hlt : (scores.take j).length = j := by
              rw [List.length_take]
              omega
            exact (popVar_lt_iff _ _ j hlt hjpos).mpr hj5

/-- Claim C5, counterexample: on the descending input `c5ExampleList` with
`max_range = 7/2 ≥ 0` and `max_std = 29/20 ≥ 0` the retained prefix is
`[(4, 0), (1, 1)]`, whose population variance `9/4` is *not* below
`max_std² = 841/400` — its standard deviation `3/2` exceeds `29/20` — so
the claim's stddev clause fails (the full 8-element admissible prefix
passed the deviation gate, but the range gate then cut it to two items). -/
theorem c5_retained_stddev_counterexample :
    DescendingScores c5ExampleList ∧ (0:ℚ) ≤ 7/2 ∧ (0:ℚ) ≤ 29/20 ∧
    rangePairs c5ExampleList (7/2) (29/20) = [(4, 0), (1, 1)] ∧
    ¬ popVar [4, 1] < (29/20) ^ 2 := by
  refine ⟨?_, by norm_num, by norm_num, ?_, ?_⟩
  · unfold DescendingScores c5ExampleList
    norm_num [List.pairwise_cons]
  · have hc : stdCandsGo (29/20) 0 0 0 [(4:ℚ), 1, 0, 0, 0, 0, 0, 0]
        = [1, -1, -1, -1, -1, -1, 7, 8] := by
      norm_num [stdCandsGo]
    have ht : takeCount [(4:ℚ), 1, 0, 0, 0, 0, 0, 0] (29/20) = 8 := by
      rw [takeCount, hc]
      decide
    have hm : ([((4:ℚ), (0:Nat)), (1, 1), (0, 2), (0, 3), (0, 4), (0, 5), (0, 6),
        (0, 7)]).map Prod.fst = [(4:ℚ), 1, 0, 0, 0, 0, 0, 0] := by
      norm_num
    unfold rangePairs c5ExampleList
    dsimp only
    rw [hm, ht]
    norm_num [List.filter]
  · unfold popVar sumQ sumSqQ
    norm_num

/-- Claim C5, witness: the amended theorem at a concrete two-element
descending input. -/
theorem c5_range_filter_amended_witness :
    DescendingScores [((1:ℚ), (0:Nat)), (0, 1)] ∧
    (∃ t, range_filter [((1:ℚ), (0:Nat)), (0, 1)] 2 1 ++ t = [0, 1]) := by
  have hd : DescendingScores [((1:ℚ), (0:Nat)), (0, 1)] := by
    unfold DescendingScores
    norm_num [List.pairwise_cons]
  exact ⟨hd, (c5_range_filter_amended [((1:ℚ), (0:Nat)), (0, 1)] 2 1 hd
    (by norm_num) (by norm_num)).1⟩

theorem map_fst_eraseKeyL {K V : Type} [DecidableEq K] (k : K) (l : List (K × V)) :
    (eraseKeyL k l).map Prod.fst = eraseK k (l.map Prod.fst) := by
  induction l with
  | nil => rfl
  | cons p rest ih =>
    by_cases h : p.1 = k
    · simp [eraseKeyL, eraseK, h]
    · simp [eraseKeyL, eraseK, h, ih]

theorem eraseK_not_mem {K : Type} [DecidableEq K] {k : K} {l : List K} (h : k ∉ l) :
    eraseK k l = l := by
  induction l with
  | nil => rfl
  | cons a rest ih =>
    simp only [List.mem_cons, not_or] at h
    rw [eraseK, if_neg (fun he => h.1 he.symm), ih h.2]

theorem eraseK_append_left {K : Type} [DecidableEq K] {k : K} {l1 : List K} (l2 : List K)
    (h : k ∈ l1) : eraseK k (l1 ++ l2) = eraseK k l1 ++ l2 := by
  induction l1 with
  | nil => exact absurd h (List.not_mem_nil k)
  | cons a rest ih =>
    by_cases ha : a = k
    · simp [eraseK, ha]
    · have h' : k ∈ rest := by
        rcases List.mem_cons.mp h with h1 | h1
        · exact absurd h1.symm ha
        · exact h1
      simp [eraseK, ha, ih h']

theorem eraseK_append_right {K : Type} [DecidableEq K] {k : K} {l1 : List K} (l2 : List K)
    (h : k ∉ l1) : eraseK k (l1 ++ l2) = l1 ++ eraseK k l2 := by
  induction l1 with
  | nil => rfl
  | cons a rest ih =>
    simp only [List.mem_cons, not_or] at h
    rw [List.cons_append, eraseK, if_neg (fun he => h.1 he.symm), ih h.2, List.cons_append]

theorem eraseK_sublist {K : Type} [DecidableEq K] (k : K) (l : List K) :
    List.Sublist (eraseK k l) l := by
  induction l with
  | nil => exact List.Sublist.refl _
  | cons a rest ih =>
    rw [eraseK]
    by_cases h : a = k
    · rw [if_pos h]
      exact List.sublist_cons_self a rest
    · rw [if_neg h]
      exact ih.cons₂ a

theorem not_mem_eraseK_self {K : Type} [DecidableEq K] {k : K} {l : List K}
    (h : l.Nodup) : k ∉ eraseK k l := by
  induction l with
  | nil => simp [eraseK]
  | cons a rest ih =>
    rw [eraseK]
    rcases List.nodup_cons.mp h with ⟨ha, hrest⟩
    by_cases hak : a = k
    · rw [if_pos hak]
      subst hak
      exact ha
    · rw [if_neg hak]
      intro hm
      rcases List.mem_cons.mp hm with h1 | h1
      · exact hak h1.symm
      · exact ih hrest h1

theorem length_eraseK_of_mem {K : Type} [DecidableEq K] {k : K} {l : List K} (h : k ∈ l) :
    (eraseK k l).length + 1 = l.length := by
  induction l with
  | nil => exact absurd h (List.not_mem_nil k)
  | cons a rest ih =>
    rw [eraseK]
    by_cases ha : a = k
    · rw [if_pos ha]
      rfl
    · have h' : k ∈ rest := by
        rcases List.mem_cons.mp h with h1 | h1
        · exact absurd h1.symm ha
        · exact h1
      rw [if_neg ha]
      simp only [List.length_cons]
      rw [← ih h']

theorem length_eraseKeyL_of_mem {K V : Type} [DecidableEq K] {k : K} {l : List (K × V)}
    (h : k ∈ l.map Prod.fst) : (eraseKeyL k l).length + 1 = l.length := by
  have h1 : (eraseKeyL k l).length = (eraseK k (l.map Prod.fst)).length := by
    rw [← List.length_map (eraseKeyL k l) Prod.fst, map_fst_eraseKeyL]
  rw [h1, length_eraseK_of_mem h, List.length_map]

theorem lookupA_none_iff {K V : Type} [DecidableEq K] (k : K) (l : List (K × V)) :
    lookupA k l = none ↔ k ∉ l.map Prod.fst := by
  induction l with
  | nil => simp [lookupA]
  | cons p rest ih =>
    rw [lookupA]
    by_cases h : p.1 = k
    · subst h
      simp
    · simp [h, ih, Ne.symm h]

theorem cacheInv_take {K V : Type} [DecidableEq K] {N : Nat} {c : LRUCache K V}
    {L : List K} (h : CacheInv N c L) : L.take N = c.keys := by
  obtain ⟨hcap, hlen, S, hL, hnd, hS⟩ := h
  have hkl : c.keys.length = c.entries.length := List.length_map ..
  rcases hS with rfl | hSlen
  · rw [hL, List.append_nil]
    exact List.take_of_length_le (by rw [hkl]; exact hlen)
  · rw [hL]
    exact List.take_left' (by rw [hkl, hSlen])

/-- One non-erase cache operation preserves the correspondence between the
cache and the reference recency list. -/
theorem cacheStep_inv {K V : Type} [DecidableEq K] {N : Nat} (hN : 1 ≤ N)
    (c : LRUCache K V) (L : List K) (op : CacheOp K V)
    (hinv : CacheInv N c L)
    (hop : match op with | .erase _ => False | _ => True) :
    CacheInv N (applyOp c op) (touchStep N L op) := by
  have htake := cacheInv_take hinv
  obtain ⟨hcap, hlen, S, hL, hnd, hS⟩ := hinv
  have hndk : c.keys.Nodup := by
    have hsub : List.Sublist c.keys L := hL ▸ List.sublist_append_left ..
    exact hnd.sublist hsub
  cases op with
  | erase k => exact hop.elim
  | get k =>
    rw [applyOp, touchStep]
    unfold LRUCache.getC
    cases hlk : lookupA k c.entries with
    | none =>
      have hkm : ¬ k ∈ L.take N := by
        rw [htake]
        exact (lookupA_none_iff k c.entries).mp hlk
      rw [if_neg hkm]
      exact ⟨hcap, hlen, S, hL, hnd, hS⟩
    | some v =>
      have hkkeys : k ∈ c.keys := by
        by_contra hno
        have hno' : lookupA k c.entries = none := (lookupA_none_iff k c.entries).mpr hno
        rw [hlk] at hno'
        exact Option.noConfusion hno'
      have hkm : k ∈ L.take N := htake ▸ hkkeys
      rw [if_pos hkm]
      dsimp only
      have hkL : k ∈ L := hL ▸ List.mem_append_left S hkkeys
      refine ⟨hcap, ?_, S, ?_, ?_, ?_⟩
      · simp only [List.length_cons]
        rw [length_eraseKeyL_of_mem hkkeys]
        exact hlen
      · show k :: eraseK k L = ((k, v) :: eraseKeyL k c.entries).map Prod.fst ++ S
        rw [List.map_cons, map_fst_eraseKeyL, List.cons_append]
        rw [hL, eraseK_append_left S hkkeys]
        rfl
      · exact List.nodup_cons.mpr ⟨not_mem_eraseK_self hnd, hnd.sublist (eraseK_sublist k L)⟩
      · rcases hS with h | h
        · exact Or.inl h
        · refine Or.inr ?_
          simp only [List.length_cons]
          rw [length_eraseKeyL_of_mem hkkeys]
          exact h
  | put k v =>
    rw [applyOp, touchStep]
    unfold LRUCache.putC
    cases hlk : lookupA k c.entries with
    | some w =>
      have hkkeys : k ∈ c.keys := by
        by_contra hno
        have hno' : lookupA k c.entries = none := (lookupA_none_iff k c.entries).mpr hno
        rw [hlk] at hno'
        exact Option.noConfusion hno'
      dsimp only
      refine ⟨hcap, ?_, S, ?_, ?_, ?_⟩
      · simp only [List.length_cons]
        rw [length_eraseKeyL_of_mem hkkeys]
        exact hlen
      · show k :: eraseK k L = ((k, v) :: eraseKeyL k c.entries).map Prod.fst ++ S
        rw [List.map_cons, map_fst_eraseKeyL, List.cons_append]
        rw [hL, eraseK_append_left S hkkeys]
        rfl
      · exact List.nodup_cons.mpr ⟨not_mem_eraseK_self hnd, hnd.sublist (eraseK_sublist k L)⟩
      · rcases hS with h | h
        · exact Or.inl h
        · refine Or.inr ?_
          simp only [List.length_cons]
          rw [length_eraseKeyL_of_mem hkkeys]
          exact h
    | none =>
      have hknotkeys : ¬ k ∈ c.keys := (lookupA_none_iff k c.entries).mp hlk
      have hkeyslen : c.keys.length = c.entries.length := List.length_map ..
      dsimp only
      by_cases hfull : c.capacity ≤ c.entries.length
      · have hlenN : c.entries.length = N := le_antisymm hlen (hcap ▸ hfull)
        rw [if_pos hfull]
        have hkeysne : c.keys ≠ [] := by
          intro h0
          rw [h0] at hkeyslen
          simp at hkeyslen
          omega
        have hentne : c.entries ≠ [] := by
          intro h0
          rw [h0] at hlenN
          simp at hlenN
          omega
        refine ⟨hcap, ?_, (c.keys.getLast hkeysne) :: eraseK k S, ?_, ?_, Or.inr ?_⟩
        · simp only [List.length_cons, List.length_dropLast]
          omega
        · show k :: eraseK k L
            = ((k, v) :: c.entries.dropLast).map Prod.fst
              ++ ((c.keys.getLast hkeysne) :: eraseK k S)
          rw [List.map_cons, List.map_dropLast]
          rw [hL, eraseK_append_right S hknotkeys]
          have hsplit : c.keys = (c.keys.dropLast) ++ [c.keys.getLast hkeysne] :=
            (List.dropLast_append_getLast hkeysne).symm
          conv_lhs => rw [hsplit]
          simp [LRUCache.keys, List.append_assoc]
        · refine List.nodup_cons.mpr ⟨?_, ?_⟩
          · by_cases hkL : k ∈ L
            · exact not_mem_eraseK_self hnd
            · rw [eraseK_not_mem hkL]
              exact hkL
          · exact hnd.sublist (eraseK_sublist k L)
        · simp only [List.length_cons, List.length_dropLast]
          omega
      · rw [if_neg hfull]
        have hS0 : S = [] := by
          rcases hS with h | h
          · exact h
          · exact absurd (hcap ▸ h ▸ le_refl c.entries.length) hfull
        subst hS0
        rw [List.append_nil] at hL
        have hkL : ¬ k ∈ L := fun hm => hknotkeys (hL ▸ hm)
        refine ⟨hcap, ?_, [], ?_, ?_, Or.inl rfl⟩
        · simp only [List.length_cons]
          rw [hcap] at hfull
          omega
        · show k :: eraseK k L = ((k, v) :: c.entries).map Prod.fst ++ []
          rw [eraseK_not_mem hkL, List.append_nil, List.map_cons, hL]
          rfl
        · rw [eraseK_not_mem hkL]
          exact List.nodup_cons.mpr ⟨hkL, hnd⟩

/-- Running a sequence of non-erase cache operations preserves the
invariant. -/
theorem runOps_inv {K V : Type} [DecidableEq K] {N : Nat} (hN : 1 ≤ N) :
    ∀ (ops : List (CacheOp K V)) (c : LRUCache K V) (L : List K),
      CacheInv N c L → noEraseOps ops →
      CacheInv N (runOps c ops) (ops.foldl (touchStep N) L) := by
  intro ops
  induction ops with
  | nil => exact fun c L h _ => h
  | cons op rest ih =>
    intro c L h hno
    rw [runOps, List.foldl_cons, List.foldl_cons]
    exact ih (applyOp c op) (touchStep N L op)
      (cacheStep_inv hN c L op h (hno op (List.mem_cons_self ..)))
      (fun o ho => hno o (List.mem_cons_of_mem _ ho))

/-- Claim C7, counterexample: capacity 1, `put a; put b; erase b`.  The
`put b` evicts `a`, the `erase b` empties the cache — yet `a` was touched
and never erased, so the claimed resident set (the N most recently touched
distinct non-erased keys) is `{a}`, not `∅`. -/
theorem c7_lru_erase_counterexample :
    (runOps (LRUCache.empty String Nat 1)
        [CacheOp.put "a" 0, CacheOp.put "b" 0, CacheOp.erase "b"]).keys = [] ∧
    (touchList 1 ([CacheOp.put "a" 0, CacheOp.put "b" 0,
        CacheOp.erase "b"] : List (CacheOp String Nat))).take 1 = ["a"] ∧
    ¬ (runOps (LRUCache.empty String Nat 1)
        [CacheOp.put "a" 0, CacheOp.put "b" 0, CacheOp.erase "b"]).keys
      = (touchList 1 ([CacheOp.put "a" 0, CacheOp.put "b" 0,
          CacheOp.erase "b"] : List (CacheOp String Nat))).take 1 := by
  refine ⟨rfl, rfl, ?_⟩
  intro h
  exact List.noConfusion (h.symm.trans rfl)

/-- Claim C7, amended: for erase-free operation sequences on a cache of
capacity `N ≥ 1` run from empty, the resident keys are exactly the first
`N` entries of the touch-recency list (most recent first; a touch is a
`put` or a hitting `get`); and a `put` of a new key on a full cache evicts
the least recently used resident key (the back of the recency list).
`erase` removes its key immediately, so after an erase the cache can hold
fewer keys than the claim's reference set predicts. -/
theorem c7_lru_amended {K V : Type} [DecidableEq K] (N : Nat) (hN : 1 ≤ N)
    (ops : List (CacheOp K V)) (hops : noEraseOps ops) :
    (runOps (LRUCache.empty K V N) ops).keys = (touchList N ops).take N ∧
    (∀ (c : LRUCache K V) (k : K) (v : V), lookupA k c.entries = none →
      c.capacity ≤ c.entries.length →
      (c.putC k v).keys = k :: c.keys.dropLast) := by
  constructor
  · have hinv0 : CacheInv N (LRUCache.empty K V N) [] :=
      ⟨rfl, by simp [LRUCache.empty], [], rfl, List.nodup_nil, Or.inl rfl⟩
    have h := runOps_inv hN ops (LRUCache.empty K V N) [] hinv0 hops
    rw [touchList]
    exact (cacheInv_take h).symm
  · intro c k v hlk hfull
    unfold LRUCache.putC
    rw [hlk]
    dsimp only
    rw [if_pos hfull]
    show ((k, v) :: c.entries.dropLast).map Prod.fst = k :: c.keys.dropLast
    rw [List.map_cons, List.map_dropLast]
    rfl

/-- Claim C7, witness: the amended theorem on a concrete erase-free
sequence with capacity 2. -/
theorem c7_lru_amended_witness :
    (1 ≤ 2 ∧ noEraseOps ([CacheOp.put "a" 0, CacheOp.put "b" 1,
        CacheOp.get "a"] : List (CacheOp String Nat))) ∧
    (runOps (LRUCache.empty String Nat 2)
        [CacheOp.put "a" 0, CacheOp.put "b" 1, CacheOp.get "a"]).keys
      = (touchList 2 ([CacheOp.put "a" 0, CacheOp.put "b" 1,
          CacheOp.get "a"] : List (CacheOp String Nat))).take 2 := by
  have hno : noEraseOps ([CacheOp.put "a" 0, CacheOp.put "b" 1,
      CacheOp.get "a"] : List (CacheOp String Nat)) := by
    intro op hop
    rcases List.mem_cons.mp hop with rfl | hop
    · exact trivial
    rcases List.mem_cons.mp hop with rfl | hop
    · exact trivial
    rcases List.mem_cons.mp hop with rfl | hop
    · exact trivial
    · exact absurd hop (List.not_mem_nil op)
  exact ⟨⟨by norm_num, hno⟩,
    (c7_lru_amended 2 (by norm_num) _ hno).1⟩

end MemMachine
